import Mathlib

/-!
Shallow embedding, over exact rationals, of the strategy-selection core of the
`mlopt` repository (`mlopt/optimizer.py` and `mlopt/utils.py`): the verified
choose-best-of-k solve, the factorization-cache construction, the training-set
construction, the accuracy computation and the performance timing statistics.
External capabilities (the per-strategy solver, the classifier) are injected as
function parameters, exactly as the Python code receives them from modules
outside this core.
-/

deriving instance DecidableEq for Except

namespace Mlopt

/-- Outcome dictionary of one candidate-strategy solve (the result of
`solve_with_strategy`): solution point `x`, wall time, infeasibility
magnitude and objective cost. -/
structure SolveOut where
  x : List ℚ
  time : ℚ
  infeasibility : ℚ
  cost : ℚ
deriving DecidableEq, Repr, Inhabited

/-- Result dictionary built by `Optimizer.choose_best`
(optimizer.py lines 446-453). -/
structure BestResult (S : Type) where
  x : List ℚ
  time : ℚ
  strategy : S
  cost : ℚ
  infeasibility : ℚ
deriving DecidableEq, Repr

instance {S : Type} [Inhabited S] : Inhabited (BestResult S) :=
  ⟨⟨[], 0, default, 0, 0⟩⟩

/-- Minimum value of a list of rationals (`np.min`; 0 on the empty list,
which the code never queries). -/
def minQ : List ℚ → ℚ
  | [] => 0
  | [a] => a
  | a :: b :: rest => min a (minQ (b :: rest))

/-- Index of the first occurrence of the minimum value, the semantics of
`np.argmin` on a non-empty array. -/
def argminQ : List ℚ → Nat
  | [] => 0
  | [_] => 0
  | a :: b :: rest => if a ≤ minQ (b :: rest) then 0 else argminQ (b :: rest) + 1

theorem minQ_le {l : List ℚ} {x : ℚ} (hx : x ∈ l) : minQ l ≤ x := by
  induction l with
  | nil => cases hx
  | cons a t ih =>
    cases t with
    | nil =>
      simp only [List.mem_singleton] at hx
      simp [minQ, hx]
    | cons b rest =>
      rcases List.mem_cons.mp hx with h | h
      · subst h
        simp only [minQ]
        exact min_le_left _ _
      · have h2 := ih h
        exact le_trans (min_le_right _ _) h2

theorem minQ_mem {l : List ℚ} (h : l ≠ []) : minQ l ∈ l := by
  induction l with
  | nil => exact absurd rfl h
  | cons a t ih =>
    cases t with
    | nil => simp [minQ]
    | cons b rest =>
      rcases le_total a (minQ (b :: rest)) with hle | hle
      · simp only [minQ, min_eq_left hle]
        exact List.mem_cons_self _ _
      · simp only [minQ, min_eq_right hle]
        exact List.mem_cons_of_mem _ (ih (by simp))

theorem argminQ_lt {l : List ℚ} (h : l ≠ []) : argminQ l < l.length := by
  induction l with
  | nil => exact absurd rfl h
  | cons a t ih =>
    cases t with
    | nil => simp [argminQ]
    | cons b rest =>
      simp only [argminQ]
      split
      · simp
      · have := ih (by simp)
        simpa [Nat.succ_lt_succ_iff] using this

theorem getD_argminQ {l : List ℚ} (h : l ≠ []) : l.getD (argminQ l) 0 = minQ l := by
  induction l with
  | nil => exact absurd rfl h
  | cons a t ih =>
    cases t with
    | nil => simp [argminQ, minQ]
    | cons b rest =>
      simp only [argminQ, minQ]
      split
      · next hle => simp [min_eq_left hle]
      · next hgt =>
        have hlt : minQ (b :: rest) < a := lt_of_not_le hgt
        have := ih (by simp)
        simpa [min_eq_right (le_of_lt hlt)] using this

theorem argminQ_first {l : List ℚ} {j : Nat} (hj : j < argminQ l) :
    minQ l < l.getD j 0 := by
  induction l generalizing j with
  | nil => simp [argminQ] at hj
  | cons a t ih =>
    cases t with
    | nil => simp [argminQ] at hj
    | cons b rest =>
      simp only [argminQ] at hj
      split at hj
      · exact absurd hj (Nat.not_lt_zero _)
      · next hgt =>
        have hlt : minQ (b :: rest) < a := lt_of_not_le hgt
        have hmin : minQ (a :: b :: rest) = minQ (b :: rest) := by
          simp only [minQ]
          exact min_eq_right (le_of_lt hlt)
        cases j with
        | zero => simpa [hmin] using hlt
        | succ k =>
          have hk : k < argminQ (b :: rest) := Nat.lt_of_succ_lt_succ hj
          have := ih hk
          simpa [hmin] using this

/-- `l.getD j 0` is a member of `l` when `j` is in range. -/
theorem getD_mem_of_lt {l : List ℚ} {j : Nat} (hj : j < l.length) :
    l.getD j 0 ∈ l := by
  rw [List.getD_eq_getElem l 0 hj]
  exact List.getElem_mem hj

/-- Index selection of `Optimizer.choose_best` (optimizer.py lines 433-444):
`idx_filter = np.where(infeas <= INFEAS_TOL)[0]`; if it is non-empty the
chosen index is `idx_filter[np.argmin(cost[idx_filter])]`, otherwise
`np.argmin(infeas)` (which raises on an empty sequence). -/
def pickIdx (tol : ℚ) (infeas cost : List ℚ) : Except String Nat :=
  let idxFilter := (List.range infeas.length).filter fun i => decide (infeas.getD i 0 ≤ tol)
  if 0 < idxFilter.length then
    Except.ok (idxFilter.getD (argminQ (idxFilter.map fun i => cost.getD i 0)) 0)
  else if infeas.isEmpty then
    Except.error "attempt to get argmin of an empty sequence"
  else
    Except.ok (argminQ infeas)

theorem mem_rangeFilter_iff {tol : ℚ} {infeas : List ℚ} {j : Nat} :
    j ∈ (List.range infeas.length).filter (fun i => decide (infeas.getD i 0 ≤ tol)) ↔
      j < infeas.length ∧ infeas.getD j 0 ≤ tol := by
  simp [List.mem_filter, List.mem_range]

theorem rangeFilter_pairwise {tol : ℚ} {infeas : List ℚ} :
    ((List.range infeas.length).filter
      (fun i => decide (infeas.getD i 0 ≤ tol))).Pairwise (· < ·) :=
  (List.pairwise_lt_range _).sublist (List.filter_sublist _) |>.imp id

theorem map_getD_eq {f : Nat → ℚ} {l : List Nat} {p : Nat} (hp : p < l.length) :
    (l.map f).getD p 0 = f (l.getD p 0) := by
  rw [List.getD_eq_getElem _ 0 (by simpa using hp), List.getD_eq_getElem _ 0 hp,
    List.getElem_map]

theorem pickIdx_feasible {tol : ℚ} {infeas : List ℚ} (cost : List ℚ)
    {j0 : Nat} (hj0 : j0 < infeas.length) (hf0 : infeas.getD j0 0 ≤ tol) :
    ∃ i, pickIdx tol infeas cost = Except.ok i ∧ i < infeas.length ∧
      infeas.getD i 0 ≤ tol ∧
      (∀ j, j < infeas.length → infeas.getD j 0 ≤ tol →
        cost.getD i 0 ≤ cost.getD j 0) ∧
      (∀ j, j < i → infeas.getD j 0 ≤ tol → cost.getD i 0 < cost.getD j 0) := by
  classical
  set flt := (List.range infeas.length).filter
    (fun i => decide (infeas.getD i 0 ≤ tol)) with hflt
  have hj0mem : j0 ∈ flt := mem_rangeFilter_iff.mpr ⟨hj0, hf0⟩
  have hfne : flt ≠ [] := List.ne_nil_of_mem hj0mem
  have hflen : 0 < flt.length := List.length_pos.mpr hfne
  set mapped := flt.map (fun i => cost.getD i 0) with hmapped
  have hmne : mapped ≠ [] := by
    rw [hmapped]
    simp only [ne_eq, List.map_eq_nil_iff]
    exact hfne
  have hmlen : mapped.length = flt.length := List.length_map _ _
  set p := argminQ mapped with hp
  have hplt : p < flt.length := by
    have := argminQ_lt hmne
    omega
  set i := flt.getD p 0 with hi
  have higet : flt.getD p 0 = flt[p] := List.getD_eq_getElem flt 0 hplt
  have himem : i ∈ flt := by
    rw [hi, higet]
    exact List.getElem_mem hplt
  have hiprop := mem_rangeFilter_iff.mp himem
  have hmap_p : mapped.getD p 0 = cost.getD i 0 := by
    rw [hmapped, map_getD_eq hplt, hi]
  have hmin_i : cost.getD i 0 = minQ mapped := by
    rw [← hmap_p]
    exact getD_argminQ hmne
  refine ⟨i, ?_, hiprop.1, hiprop.2, ?_, ?_⟩
  · show pickIdx tol infeas cost = Except.ok i
    unfold pickIdx
    rw [← hflt, if_pos hflen, ← hmapped, ← hp, ← hi]
  · intro j hjlt hjf
    have hjmem : j ∈ flt := mem_rangeFilter_iff.mpr ⟨hjlt, hjf⟩
    have : cost.getD j 0 ∈ mapped := by
      rw [hmapped]
      exact List.mem_map.mpr ⟨j, hjmem, rfl⟩
    rw [hmin_i]
    exact minQ_le this
  · intro j hji hjf
    have hjlt : j < infeas.length := lt_trans hji hiprop.1
    have hjmem : j ∈ flt := mem_rangeFilter_iff.mpr ⟨hjlt, hjf⟩
    obtain ⟨q, hqlt, hq⟩ := List.mem_iff_getElem.mp hjmem
    have hpw : flt.Pairwise (· < ·) := by
      rw [hflt]
      exact rangeFilter_pairwise
    have hqp : q < p := by
      by_contra hqp
      push_neg at hqp
      rcases lt_or_eq_of_le hqp with hlt | heq
      · have hpq := (List.pairwise_iff_getElem.mp hpw) p q hplt hqlt hlt
        rw [hq] at hpq
        rw [hi, higet] at hji
        omega
      · subst heq
        rw [hi, higet, hq] at hji
        omega
    have hfirst := argminQ_first (l := mapped) (j := q) (by rw [← hp]; exact hqp)
    have hmap_q : mapped.getD q 0 = cost.getD j 0 := by
      have hqlt2 : q < flt.length := by omega
      rw [hmapped, map_getD_eq hqlt2, List.getD_eq_getElem flt 0 hqlt2, hq]
    rw [← hmap_q]
    have hqlt3 : q < mapped.length := by omega
    rw [hmin_i]
    rw [List.getD_eq_getElem mapped 0 hqlt3] at hfirst ⊢
    exact hfirst

theorem pickIdx_infeasible {tol : ℚ} {infeas : List ℚ} (cost : List ℚ)
    (hne : infeas ≠ [])
    (hall : ∀ j, j < infeas.length → ¬ infeas.getD j 0 ≤ tol) :
    ∃ i, pickIdx tol infeas cost = Except.ok i ∧ i < infeas.length ∧
      (∀ j, j < infeas.length → infeas.getD i 0 ≤ infeas.getD j 0) ∧
      (∀ j, j < i → infeas.getD i 0 < infeas.getD j 0) := by
  classical
  have hfe : (List.range infeas.length).filter
      (fun i => decide (infeas.getD i 0 ≤ tol)) = [] := by
    rw [List.filter_eq_nil_iff]
    intro a ha
    have halt := List.mem_range.mp ha
    simpa using hall a halt
  have harg := argminQ_lt hne
  refine ⟨argminQ infeas, ?_, harg, ?_, ?_⟩
  · simp only [pickIdx]
    rw [hfe]
    simp [List.isEmpty_iff, hne]
  · intro j hjlt
    rw [getD_argminQ hne]
    exact minQ_le (getD_mem_of_lt hjlt)
  · intro j hji
    rw [getD_argminQ hne]
    exact argminQ_first hji

theorem pickIdx_ok_lt {tol : ℚ} {infeas cost : List ℚ} {i : Nat}
    (h : pickIdx tol infeas cost = Except.ok i) : i < infeas.length := by
  classical
  by_cases hfe : ∃ j, j < infeas.length ∧ infeas.getD j 0 ≤ tol
  · obtain ⟨j0, hj0, hf0⟩ := hfe
    obtain ⟨i', h', hlt, _⟩ := pickIdx_feasible cost hj0 hf0
    rw [h'] at h
    cases h
    exact hlt
  · push_neg at hfe
    by_cases hne : infeas = []
    · subst hne
      simp [pickIdx] at h
    · obtain ⟨i', h', hlt, _⟩ := pickIdx_infeasible cost hne
        (fun j hj => not_le_of_lt (hfe j hj))
      rw [h'] at h
      cases h
      exact hlt

theorem pickIdx_ok_of_ne_nil (tol : ℚ) {infeas : List ℚ} (cost : List ℚ)
    (hne : infeas ≠ []) :
    ∃ i, pickIdx tol infeas cost = Except.ok i ∧ i < infeas.length := by
  classical
  by_cases hfe : ∃ j, j < infeas.length ∧ infeas.getD j 0 ≤ tol
  · obtain ⟨j0, hj0, hf0⟩ := hfe
    obtain ⟨i, h, hlt, _⟩ := pickIdx_feasible cost hj0 hf0
    exact ⟨i, h, hlt⟩
  · push_neg at hfe
    obtain ⟨i, h, hlt, _⟩ := pickIdx_infeasible cost hne
      (fun j hj => not_le_of_lt (hfe j hj))
    exact ⟨i, h, hlt⟩

theorem pickIdx_nil {tol : ℚ} {cost : List ℚ} :
    pickIdx tol [] cost = Except.error "attempt to get argmin of an empty sequence" := by
  simp [pickIdx]

/-- `strategies = [self.encoding[l] for l in labels]` (optimizer.py line 400);
an out-of-range label raises a Python `IndexError`. -/
def strategyLookup {S : Type} (encoding : List S) : List Nat → Except String (List S)
  | [] => Except.ok []
  | l :: ls =>
    match encoding[l]? with
    | none => Except.error "IndexError: encoding"
    | some s =>
      match strategyLookup encoding ls with
      | Except.error e => Except.error e
      | Except.ok rest => Except.ok (s :: rest)

/-- `[self._solver_cache[l] for l in labels]` (optimizer.py line 405). -/
def cacheLookup {C : Type} (sc : List C) : List Nat → Except String (List (Option C))
  | [] => Except.ok []
  | l :: ls =>
    match sc[l]? with
    | none => Except.error "IndexError: solver cache"
    | some c =>
      match cacheLookup sc ls with
      | Except.error e => Except.error e
      | Except.ok rest => Except.ok (some c :: rest)

/-- Python truthiness of `self._solver_cache`: `None` and the empty list are
falsy. -/
def cacheTruthy {C : Type} : Option (List C) → Bool
  | none => false
  | some l => !l.isEmpty

/-- `cache = [None] * n_best`, replaced by the per-label solver-cache entries
when `self._solver_cache` is truthy and `use_cache` holds
(optimizer.py lines 402-405). -/
def buildCaches {C : Type} (solverCache : Option (List C)) (useCache : Bool)
    (nBest : Nat) (labels : List Nat) : Except String (List (Option C)) :=
  if cacheTruthy solverCache && useCache then
    cacheLookup (solverCache.getD []) labels
  else
    Except.ok (List.replicate nBest none)

/-- Sequential candidate evaluation (optimizer.py lines 423-430): for
`j in range(n_best)`, solve with `strategies[j]` and `cache[j]`, collecting
per-candidate `x`, `time`, `infeasibility` and `cost`. -/
def seqSolveAux {S C : Type} (solve : S → Option C → SolveOut)
    (strategies : List S) (caches : List (Option C)) :
    List Nat → Except String (List (S × SolveOut))
  | [] => Except.ok []
  | j :: js =>
    match strategies[j]?, caches[j]? with
    | some s, some c =>
      match seqSolveAux solve strategies caches js with
      | Except.error e => Except.error e
      | Except.ok rest => Except.ok ((s, solve s c) :: rest)
    | _, _ => Except.error "IndexError: candidate"

/-- Parallel candidate evaluation (optimizer.py lines 407-421): one remote task
per entry of `strategies`, and every task receives the whole `cache` list. -/
def parCandidates {S C : Type} (solveRay : S → List (Option C) → SolveOut)
    (strategies : List S) (caches : List (Option C)) : List (S × SolveOut) :=
  strategies.map fun s => (s, solveRay s caches)

/-- Selection and result assembly of `Optimizer.choose_best`
(optimizer.py lines 432-453): pick the index chosen by `pickIdx`, report that
candidate's `x`, strategy, cost and infeasibility, and the summed time. -/
def assemble {S : Type} (tol : ℚ) (rs : List (S × SolveOut)) :
    Except String (BestResult S) :=
  match pickIdx tol (rs.map fun p => p.2.infeasibility) (rs.map fun p => p.2.cost) with
  | Except.error e => Except.error e
  | Except.ok i =>
    match rs[i]? with
    | none => Except.error "IndexError: result"
    | some so =>
      Except.ok { x := so.2.x, time := (rs.map fun p => p.2.time).sum,
                  strategy := so.1, cost := so.2.cost,
                  infeasibility := so.2.infeasibility }

/-- `Optimizer.choose_best` with `parallel=False` (optimizer.py lines 373-454),
over an injected per-candidate solver `solve` standing for
`solve_with_strategy(problem, strategy, cache_entry)`. -/
def chooseBest {S C : Type} (tol : ℚ) (encoding : List S)
    (solverCache : Option (List C)) (useCache : Bool)
    (solve : S → Option C → SolveOut) (nBest : Nat) (labels : List Nat) :
    Except String (BestResult S) :=
  match strategyLookup encoding labels with
  | Except.error e => Except.error e
  | Except.ok strategies =>
    match buildCaches solverCache useCache nBest labels with
    | Except.error e => Except.error e
    | Except.ok caches =>
      match seqSolveAux solve strategies caches (List.range nBest) with
      | Except.error e => Except.error e
      | Except.ok rs => assemble tol rs

/-- `Optimizer.choose_best` with `parallel=True` (optimizer.py lines 407-421):
the remote solver `solveRay` receives the whole cache list, and one task is
spawned per strategy in `strategies`. -/
def chooseBestPar {S C : Type} (tol : ℚ) (encoding : List S)
    (solverCache : Option (List C)) (useCache : Bool)
    (solveRay : S → List (Option C) → SolveOut) (nBest : Nat) (labels : List Nat) :
    Except String (BestResult S) :=
  match strategyLookup encoding labels with
  | Except.error e => Except.error e
  | Except.ok strategies =>
    match buildCaches solverCache useCache nBest labels with
    | Except.error e => Except.error e
    | Except.ok caches => assemble tol (parCandidates solveRay strategies caches)

/-- Modelled from the spec: `solve_with_strategy` lives in `mlopt/problem.py`,
which is not among the sources; per spec §4.5/§7 a per-candidate solve failure
"is treated as infeasible with a large sentinel infeasibility value," not as a
fatal error, so the candidate still enters the selection. -/
def sentinelize (sentinel : ℚ) : Option SolveOut → SolveOut
  | some r => r
  | none => { x := [], time := 0, infeasibility := sentinel, cost := 0 }

theorem strategyLookup_ok_length {S : Type} {encoding : List S}
    {labels : List Nat} {out : List S}
    (h : strategyLookup encoding labels = Except.ok out) :
    out.length = labels.length := by
  induction labels generalizing out with
  | nil =>
    simp only [strategyLookup] at h
    cases h
    rfl
  | cons l ls ih =>
    simp only [strategyLookup] at h
    cases hget : encoding[l]? with
    | none => rw [hget] at h; cases h
    | some s =>
      rw [hget] at h
      cases hrec : strategyLookup encoding ls with
      | error e => rw [hrec] at h; cases h
      | ok rest =>
        rw [hrec] at h
        cases h
        simp [ih hrec]

theorem strategyLookup_all_ok {S : Type} [Inhabited S] {encoding : List S}
    {labels : List Nat} (hlt : ∀ l ∈ labels, l < encoding.length) :
    strategyLookup encoding labels =
      Except.ok (labels.map fun l => encoding.getD l default) := by
  induction labels with
  | nil => simp [strategyLookup]
  | cons l ls ih =>
    have hl : l < encoding.length := hlt l (List.mem_cons_self _ _)
    have hget : encoding[l]? = some (encoding.getD l default) := by
      rw [List.getElem?_eq_getElem hl, List.getD_eq_getElem encoding default hl]
    simp only [strategyLookup, hget, ih fun x hx => hlt x (List.mem_cons_of_mem _ hx)]
    simp

theorem seqSolveAux_ok_length {S C : Type} {solve : S → Option C → SolveOut}
    {strategies : List S} {caches : List (Option C)} {js : List Nat}
    {rs : List (S × SolveOut)}
    (h : seqSolveAux solve strategies caches js = Except.ok rs) :
    rs.length = js.length := by
  induction js generalizing rs with
  | nil =>
    simp only [seqSolveAux] at h
    cases h
    rfl
  | cons j js ih =>
    simp only [seqSolveAux] at h
    cases hs : strategies[j]? with
    | none => rw [hs] at h; cases h
    | some s =>
      cases hc : caches[j]? with
      | none => rw [hs, hc] at h; cases h
      | some c =>
        rw [hs, hc] at h
        cases hrec : seqSolveAux solve strategies caches js with
        | error e => rw [hrec] at h; cases h
        | ok rest =>
          rw [hrec] at h
          cases h
          simp [ih hrec]

theorem seqSolveAux_all_ok {S C : Type} [Inhabited S]
    (solve : S → Option C → SolveOut)
    (strategies : List S) (caches : List (Option C)) {js : List Nat}
    (hlt : ∀ j ∈ js, j < strategies.length ∧ j < caches.length) :
    seqSolveAux solve strategies caches js =
      Except.ok (js.map fun j =>
        (strategies.getD j default,
         solve (strategies.getD j default) (caches.getD j none))) := by
  induction js with
  | nil => simp [seqSolveAux]
  | cons j js ih =>
    obtain ⟨hjs, hjc⟩ := hlt j (List.mem_cons_self _ _)
    have hs : strategies[j]? = some (strategies.getD j default) := by
      rw [List.getElem?_eq_getElem hjs, List.getD_eq_getElem strategies default hjs]
    have hc : caches[j]? = some (caches.getD j none) := by
      rw [List.getElem?_eq_getElem hjc, List.getD_eq_getElem caches none hjc]
    simp only [seqSolveAux, hs, hc, ih fun x hx => hlt x (List.mem_cons_of_mem _ hx)]
    simp

theorem cacheLookup_ok_length {C : Type} {sc : List C} {labels : List Nat}
    {out : List (Option C)}
    (h : cacheLookup sc labels = Except.ok out) : out.length = labels.length := by
  induction labels generalizing out with
  | nil =>
    simp only [cacheLookup] at h
    cases h
    rfl
  | cons l ls ih =>
    simp only [cacheLookup] at h
    cases hget : sc[l]? with
    | none => rw [hget] at h; cases h
    | some c =>
      rw [hget] at h
      cases hrec : cacheLookup sc ls with
      | error e => rw [hrec] at h; cases h
      | ok rest =>
        rw [hrec] at h
        cases h
        simp [ih hrec]

theorem buildCaches_ok_length {C : Type} {solverCache : Option (List C)}
    {useCache : Bool} {nBest : Nat} {labels : List Nat} {caches : List (Option C)}
    (hlen : labels.length = nBest)
    (h : buildCaches solverCache useCache nBest labels = Except.ok caches) :
    caches.length = nBest := by
  unfold buildCaches at h
  split at h
  · rw [← hlen]
    exact cacheLookup_ok_length h
  · cases h
    exact List.length_replicate _ _

theorem assemble_ok_elim {S : Type} {tol : ℚ} {rs : List (S × SolveOut)}
    {r : BestResult S} (h : assemble tol rs = Except.ok r) :
    ∃ i so,
      pickIdx tol (rs.map fun p => p.2.infeasibility) (rs.map fun p => p.2.cost) =
        Except.ok i ∧
      rs[i]? = some so ∧
      r = { x := so.2.x, time := (rs.map fun p => p.2.time).sum,
            strategy := so.1, cost := so.2.cost,
            infeasibility := so.2.infeasibility } := by
  unfold assemble at h
  split at h
  · cases h
  · rename_i i hp
    split at h
    · cases h
    · rename_i so hg
      cases h
      exact ⟨i, so, hp, hg, rfl⟩

theorem assemble_ok_of_ne_nil {S : Type} (tol : ℚ) {rs : List (S × SolveOut)}
    (hne : rs ≠ []) : ∃ r, assemble tol rs = Except.ok r := by
  have hmne : rs.map (fun p => p.2.infeasibility) ≠ [] := by
    simp only [ne_eq, List.map_eq_nil_iff]
    exact hne
  obtain ⟨i, hp, hlt⟩ := pickIdx_ok_of_ne_nil tol
    (rs.map fun p => p.2.cost) hmne
  have hilt : i < rs.length := by
    have := List.length_map rs (fun p => p.2.infeasibility)
    omega
  have hg : rs[i]? = some rs[i] := List.getElem?_eq_getElem hilt
  refine ⟨{ x := rs[i].2.x, time := (rs.map fun p => p.2.time).sum,
            strategy := rs[i].1, cost := rs[i].2.cost,
            infeasibility := rs[i].2.infeasibility }, ?_⟩
  simp only [assemble, hp, hg]

theorem chooseBest_eq_assemble {S C : Type} (tol : ℚ) {encoding : List S}
    {solverCache : Option (List C)} {useCache : Bool}
    {solve : S → Option C → SolveOut} {nBest : Nat} {labels : List Nat}
    {strategies : List S} {caches : List (Option C)} {rs : List (S × SolveOut)}
    (hstr : strategyLookup encoding labels = Except.ok strategies)
    (hca : buildCaches solverCache useCache nBest labels = Except.ok caches)
    (hrs : seqSolveAux solve strategies caches (List.range nBest) = Except.ok rs) :
    chooseBest tol encoding solverCache useCache solve nBest labels =
      assemble tol rs := by
  simp only [chooseBest, hstr, hca, hrs]

theorem map_getD {α : Type} {f : α → ℚ} {l : List α} {d : α} {p : Nat}
    (hp : p < l.length) : (l.map f).getD p 0 = f (l.getD p d) := by
  rw [List.getD_eq_getElem _ 0 (by simpa using hp), List.getD_eq_getElem _ d hp,
    List.getElem_map]

/-- **C1.** For every invocation of the verified choose-best-of-k solve
(`Optimizer.choose_best`, sequential path) whose candidate evaluation yields
the outcome list `rs`: letting `F` be the set of candidate ranks whose
infeasibility is at most the fixed tolerance `tol` (`INFEAS_TOL`), the returned
result is the member of `F` with minimum cost when `F` is non-empty, and the
candidate with minimum infeasibility when `F` is empty; in both cases ties are
broken by the lowest rank index (first-seen minimum). -/
theorem chooseBest_selection_rule {S C : Type} [Inhabited S] {tol : ℚ}
    {encoding : List S} {solverCache : Option (List C)} {useCache : Bool}
    {solve : S → Option C → SolveOut} {nBest : Nat} {labels : List Nat}
    {strategies : List S} {caches : List (Option C)} {rs : List (S × SolveOut)}
    {r : BestResult S}
    (hstr : strategyLookup encoding labels = Except.ok strategies)
    (hca : buildCaches solverCache useCache nBest labels = Except.ok caches)
    (hrs : seqSolveAux solve strategies caches (List.range nBest) = Except.ok rs)
    (hr : chooseBest tol encoding solverCache useCache solve nBest labels =
      Except.ok r) :
    ∃ i, i < rs.length ∧
      r.strategy = (rs.getD i default).1 ∧
      r.x = (rs.getD i default).2.x ∧
      r.cost = (rs.getD i default).2.cost ∧
      r.infeasibility = (rs.getD i default).2.infeasibility ∧
      ((∃ j, j < rs.length ∧ (rs.getD j default).2.infeasibility ≤ tol) →
        (rs.getD i default).2.infeasibility ≤ tol ∧
        (∀ j, j < rs.length → (rs.getD j default).2.infeasibility ≤ tol →
          (rs.getD i default).2.cost ≤ (rs.getD j default).2.cost) ∧
        (∀ j, j < i → (rs.getD j default).2.infeasibility ≤ tol →
          (rs.getD i default).2.cost < (rs.getD j default).2.cost)) ∧
      ((∀ j, j < rs.length → ¬ (rs.getD j default).2.infeasibility ≤ tol) →
        (∀ j, j < rs.length →
          (rs.getD i default).2.infeasibility ≤
            (rs.getD j default).2.infeasibility) ∧
        (∀ j, j < i →
          (rs.getD i default).2.infeasibility <
            (rs.getD j default).2.infeasibility)) := by
  classical
  have hasm := chooseBest_eq_assemble tol hstr hca hrs
  rw [hasm] at hr
  obtain ⟨i, so, hp, hg, hre⟩ := assemble_ok_elim hr
  have hmaplen : (rs.map fun p => p.2.infeasibility).length = rs.length :=
    List.length_map _ _
  have hilt : i < rs.length := by
    have := pickIdx_ok_lt hp
    omega
  have hso : rs.getD i default = so := by
    rw [List.getD_eq_getElem rs default hilt]
    have hgg := List.getElem?_eq_getElem hilt
    rw [hgg] at hg
    exact Option.some.inj hg
  have hinf : ∀ j, j < rs.length →
      (rs.map fun p => p.2.infeasibility).getD j 0 =
        (rs.getD j default).2.infeasibility := fun j hj => map_getD hj
  have hcost : ∀ j, j < rs.length →
      (rs.map fun p => p.2.cost).getD j 0 = (rs.getD j default).2.cost :=
    fun j hj => map_getD hj
  refine ⟨i, hilt, ?_, ?_, ?_, ?_, ?_, ?_⟩
  · rw [hre, hso]
  · rw [hre, hso]
  · rw [hre, hso]
  · rw [hre, hso]
  · rintro ⟨j, hj, hjf⟩
    have hj0 : j < (rs.map fun p => p.2.infeasibility).length := by omega
    have hf0 : (rs.map fun p => p.2.infeasibility).getD j 0 ≤ tol := by
      rw [hinf j hj]; exact hjf
    obtain ⟨i', hp', hlt', hif', hmin', hfirst'⟩ :=
      pickIdx_feasible (rs.map fun p => p.2.cost) hj0 hf0
    rw [hp'] at hp
    have hii : i' = i := Except.ok.inj hp
    subst hii
    refine ⟨?_, ?_, ?_⟩
    · rw [← hinf i' hilt]; exact hif'
    · intro k hk hkf
      rw [← hcost i' hilt, ← hcost k hk]
      exact hmin' k (by omega) (by rw [hinf k hk]; exact hkf)
    · intro k hk hkf
      have hklen : k < rs.length := lt_trans hk hilt
      rw [← hcost i' hilt, ← hcost k hklen]
      exact hfirst' k hk (by rw [hinf k hklen]; exact hkf)
  · intro hall
    have hne : (rs.map fun p => p.2.infeasibility) ≠ [] := by
      have : rs ≠ [] := List.ne_nil_of_length_pos (by omega)
      simp only [ne_eq, List.map_eq_nil_iff]
      exact this
    obtain ⟨i', hp', hlt', hmin', hfirst'⟩ :=
      pickIdx_infeasible (rs.map fun p => p.2.cost) hne
        (fun j hj => by
          rw [hinf j (by omega)]
          exact hall j (by omega))
    rw [hp'] at hp
    have hii : i' = i := Except.ok.inj hp
    subst hii
    refine ⟨?_, ?_⟩
    · intro k hk
      rw [← hinf i' hilt, ← hinf k hk]
      exact hmin' k (by omega)
    · intro k hk
      have hklen : k < rs.length := lt_trans hk hilt
      rw [← hinf i' hilt, ← hinf k hklen]
      exact hfirst' k hk

/-- **C2.** For every invocation of the verified choose-best-of-k solve with
`n_best ≥ 1` candidates, the `time` field of the returned result equals the sum
of the individual solve times of all `n_best` candidates, not just the
winner's. -/
theorem chooseBest_time_is_sum {S C : Type} {tol : ℚ}
    {encoding : List S} {solverCache : Option (List C)} {useCache : Bool}
    {solve : S → Option C → SolveOut} {nBest : Nat} {labels : List Nat}
    {strategies : List S} {caches : List (Option C)} {rs : List (S × SolveOut)}
    {r : BestResult S}
    (hn : 1 ≤ nBest)
    (hstr : strategyLookup encoding labels = Except.ok strategies)
    (hca : buildCaches solverCache useCache nBest labels = Except.ok caches)
    (hrs : seqSolveAux solve strategies caches (List.range nBest) = Except.ok rs)
    (hr : chooseBest tol encoding solverCache useCache solve nBest labels =
      Except.ok r) :
    rs.length = nBest ∧ r.time = (rs.map fun p => p.2.time).sum := by
  constructor
  · rw [seqSolveAux_ok_length hrs, List.length_range]
  · have hasm := chooseBest_eq_assemble tol hstr hca hrs
    rw [hasm] at hr
    obtain ⟨i, so, hp, hg, hre⟩ := assemble_ok_elim hr
    rw [hre]

/-- Candidate solver realizing spec end-to-end scenario C: three ranked
candidates with infeasibilities `[0, 0.2, 0]`, costs `[5, 1, 3]` and unit
solve times; strategy descriptors are naturals, no solver cache. -/
def scenSolve : Nat → Option Unit → SolveOut
  | 0, _ => { x := [], time := 1, infeasibility := 0, cost := 5 }
  | 1, _ => { x := [], time := 1, infeasibility := 1/5, cost := 1 }
  | _, _ => { x := [], time := 1, infeasibility := 0, cost := 3 }

/-- The per-candidate outcome list produced by `scenSolve` on labels
`[0, 1, 2]`. -/
def scenCandidates : List (Nat × SolveOut) :=
  [(0, { x := [], time := 1, infeasibility := 0, cost := 5 }),
   (1, { x := [], time := 1, infeasibility := 1/5, cost := 1 }),
   (2, { x := [], time := 1, infeasibility := 0, cost := 3 })]

/-- The certified result of scenario C: candidate 2 wins (cost 3 < 5 among the
feasible subset {0, 2}), and the reported time is the sum 3. -/
def scenBest : BestResult Nat :=
  { x := [], time := 3, strategy := 2, cost := 3, infeasibility := 0 }

/-- Witness for the C1 theorem at spec scenario C (`ε_infeas = 0.01`):
the feasible subset is {0, 2} and candidate 2 (cost 3.0 < 5.0) wins. -/
theorem chooseBest_selection_rule_witness :
    (strategyLookup ([0, 1, 2] : List Nat) [0, 1, 2] = Except.ok [0, 1, 2] ∧
     buildCaches (none : Option (List Unit)) false 3 [0, 1, 2] =
       Except.ok [none, none, none] ∧
     seqSolveAux scenSolve [0, 1, 2] [none, none, none] (List.range 3) =
       Except.ok scenCandidates ∧
     chooseBest (1/100) [0, 1, 2] (none : Option (List Unit)) false scenSolve 3
       [0, 1, 2] = Except.ok scenBest) ∧
    (∃ i, i < scenCandidates.length ∧
      scenBest.strategy = (scenCandidates.getD i default).1 ∧
      scenBest.x = (scenCandidates.getD i default).2.x ∧
      scenBest.cost = (scenCandidates.getD i default).2.cost ∧
      scenBest.infeasibility = (scenCandidates.getD i default).2.infeasibility ∧
      ((∃ j, j < scenCandidates.length ∧
          (scenCandidates.getD j default).2.infeasibility ≤ 1/100) →
        (scenCandidates.getD i default).2.infeasibility ≤ 1/100 ∧
        (∀ j, j < scenCandidates.length →
          (scenCandidates.getD j default).2.infeasibility ≤ 1/100 →
          (scenCandidates.getD i default).2.cost ≤
            (scenCandidates.getD j default).2.cost) ∧
        (∀ j, j < i → (scenCandidates.getD j default).2.infeasibility ≤ 1/100 →
          (scenCandidates.getD i default).2.cost <
            (scenCandidates.getD j default).2.cost)) ∧
      ((∀ j, j < scenCandidates.length →
          ¬ (scenCandidates.getD j default).2.infeasibility ≤ 1/100) →
        (∀ j, j < scenCandidates.length →
          (scenCandidates.getD i default).2.infeasibility ≤
            (scenCandidates.getD j default).2.infeasibility) ∧
        (∀ j, j < i →
          (scenCandidates.getD i default).2.infeasibility <
            (scenCandidates.getD j default).2.infeasibility))) := by
  have hstr : strategyLookup ([0, 1, 2] : List Nat) [0, 1, 2] =
      Except.ok [0, 1, 2] := by with_unfolding_all decide
  have hca : buildCaches (none : Option (List Unit)) false 3 [0, 1, 2] =
      Except.ok [none, none, none] := by with_unfolding_all decide
  have hrs : seqSolveAux scenSolve [0, 1, 2] [none, none, none] (List.range 3) =
      Except.ok scenCandidates := by with_unfolding_all decide
  have hr : chooseBest (1/100) [0, 1, 2] (none : Option (List Unit)) false
      scenSolve 3 [0, 1, 2] = Except.ok scenBest := by with_unfolding_all decide
  exact ⟨⟨hstr, hca, hrs, hr⟩, chooseBest_selection_rule hstr hca hrs hr⟩

/-- Witness for the C2 theorem at spec scenario C: the reported time is
`1 + 1 + 1 = 3`, the sum over all three candidates. -/
theorem chooseBest_time_is_sum_witness :
    ((1 : Nat) ≤ 3 ∧
     strategyLookup ([0, 1, 2] : List Nat) [0, 1, 2] = Except.ok [0, 1, 2] ∧
     chooseBest (1/100) [0, 1, 2] (none : Option (List Unit)) false scenSolve 3
       [0, 1, 2] = Except.ok scenBest) ∧
    (scenCandidates.length = 3 ∧
      scenBest.time = (scenCandidates.map fun p => p.2.time).sum) := by
  have hstr : strategyLookup ([0, 1, 2] : List Nat) [0, 1, 2] =
      Except.ok [0, 1, 2] := by with_unfolding_all decide
  have hca : buildCaches (none : Option (List Unit)) false 3 [0, 1, 2] =
      Except.ok [none, none, none] := by with_unfolding_all decide
  have hrs : seqSolveAux scenSolve [0, 1, 2] [none, none, none] (List.range 3) =
      Except.ok scenCandidates := by with_unfolding_all decide
  have hr : chooseBest (1/100) [0, 1, 2] (none : Option (List Unit)) false
      scenSolve 3 [0, 1, 2] = Except.ok scenBest := by with_unfolding_all decide
  exact ⟨⟨by decide, hstr, hr⟩,
    chooseBest_time_is_sum (by decide) hstr hca hrs hr⟩

/-- **C3.** For every parameter vector and ranked candidate list, running the
choose-best-of-k candidate solves in parallel (`parallel=True`) and
sequentially (`parallel=False`) produces identical results — the same `x`,
`time`, `infeasibility`, `cost` and chosen strategy — given the same
per-candidate solve outcomes: for each candidate rank `j` the remote solver
(which receives the whole cache list) returns the same outcome as the
sequential solver (which receives entry `cache[j]`). -/
theorem chooseBest_parallel_eq_sequential {S C : Type} [Inhabited S] {tol : ℚ}
    {encoding : List S} {solverCache : Option (List C)} {useCache : Bool}
    {solveRay : S → List (Option C) → SolveOut} {solve : S → Option C → SolveOut}
    {nBest : Nat} {labels : List Nat}
    {strategies : List S} {caches : List (Option C)}
    (hlen : labels.length = nBest)
    (hstr : strategyLookup encoding labels = Except.ok strategies)
    (hca : buildCaches solverCache useCache nBest labels = Except.ok caches)
    (hsame : ∀ j, j < nBest →
      solveRay (strategies.getD j default) caches =
        solve (strategies.getD j default) (caches.getD j none)) :
    chooseBestPar tol encoding solverCache useCache solveRay nBest labels =
      chooseBest tol encoding solverCache useCache solve nBest labels := by
  have hslen : strategies.length = nBest := by
    rw [strategyLookup_ok_length hstr, hlen]
  have hclen : caches.length = nBest := buildCaches_ok_length hlen hca
  have hbounds : ∀ j ∈ List.range nBest,
      j < strategies.length ∧ j < caches.length := by
    intro j hj
    have := List.mem_range.mp hj
    omega
  have hseq := seqSolveAux_all_ok solve strategies caches hbounds
  have hlist : parCandidates solveRay strategies caches =
      (List.range nBest).map fun j =>
        (strategies.getD j default,
         solve (strategies.getD j default) (caches.getD j none)) := by
    apply List.ext_getElem
    · simp [parCandidates, hslen]
    · intro i h1 h2
      have hi : i < nBest := by
        simpa [parCandidates, hslen] using h1
      have hi' : i < strategies.length := by omega
      have hgd : strategies.getD i default = strategies[i] :=
        List.getD_eq_getElem strategies default hi'
      simp only [parCandidates, List.getElem_map, List.getElem_range]
      rw [← hgd, hsame i hi]
  simp only [chooseBest, chooseBestPar, hstr, hca, hseq, hlist]

/-- A remote candidate solver for the C3 witness: ignores the cache list and
reports the strategy id as its cost. -/
def scenSolvePar : Nat → List (Option Nat) → SolveOut :=
  fun s _ => { x := [], time := 1, infeasibility := 0, cost := (s : ℚ) }

/-- The matching sequential candidate solver for the C3 witness. -/
def scenSolveSeq : Nat → Option Nat → SolveOut :=
  fun s _ => { x := [], time := 1, infeasibility := 0, cost := (s : ℚ) }

/-- Witness for the C3 theorem at a concrete instance: two candidates, a
non-trivial solver cache, remote and sequential solvers agreeing per rank. -/
theorem chooseBest_parallel_eq_sequential_witness :
    (([0, 1] : List Nat).length = 2 ∧
     strategyLookup ([5, 7] : List Nat) [0, 1] = Except.ok [5, 7] ∧
     buildCaches (some [10, 20] : Option (List Nat)) true 2 [0, 1] =
       Except.ok [some 10, some 20]) ∧
    chooseBestPar (1/100) ([5, 7] : List Nat)
        (some [10, 20] : Option (List Nat)) true scenSolvePar 2 [0, 1] =
      chooseBest (1/100) ([5, 7] : List Nat)
        (some [10, 20] : Option (List Nat)) true scenSolveSeq 2 [0, 1] := by
  have hlen : ([0, 1] : List Nat).length = 2 := by decide
  have hstr : strategyLookup ([5, 7] : List Nat) [0, 1] = Except.ok [5, 7] := by
    with_unfolding_all decide
  have hca : buildCaches (some [10, 20] : Option (List Nat)) true 2 [0, 1] =
      Except.ok [some 10, some 20] := by with_unfolding_all decide
  refine ⟨⟨hlen, hstr, hca⟩, ?_⟩
  exact chooseBest_parallel_eq_sequential hlen hstr hca (fun j hj => rfl)

/-- **C4.** (part spec-modelled: `solve_with_strategy` maps a per-candidate
solve failure to the sentinel infeasibility, see `sentinelize`.)  The verified
choose-best-of-k solve signals an error when the candidate list is empty; and
whenever the candidate list is non-empty, matches `n_best`, and the strategy
and cache lookups succeed, the call returns a result — a failure of any
candidate's raw solve is turned into the sentinel infeasibility and the
selection still proceeds among the candidates, instead of aborting. -/
theorem chooseBest_error_handling {S C : Type} [Inhabited S] (tol sentinel : ℚ)
    (encoding : List S) (solverCache : Option (List C)) (useCache : Bool)
    (rawSolve : S → Option C → Option SolveOut) (nBest : Nat)
    (labels : List Nat) :
    (labels = [] →
      ∃ e, chooseBest tol encoding solverCache useCache
        (fun s c => sentinelize sentinel (rawSolve s c)) nBest labels =
          Except.error e) ∧
    (labels ≠ [] → labels.length = nBest →
      ∀ strategies caches,
        strategyLookup encoding labels = Except.ok strategies →
        buildCaches solverCache useCache nBest labels = Except.ok caches →
        ∃ r, chooseBest tol encoding solverCache useCache
          (fun s c => sentinelize sentinel (rawSolve s c)) nBest labels =
            Except.ok r) := by
  constructor
  · intro hl
    subst hl
    have hstr : strategyLookup encoding ([] : List Nat) = Except.ok [] := rfl
    cases hbc : buildCaches solverCache useCache nBest ([] : List Nat) with
    | error e =>
      refine ⟨e, ?_⟩
      simp only [chooseBest, hstr, hbc]
    | ok caches =>
      cases nBest with
      | zero =>
        have hseq : seqSolveAux
            (fun s c => sentinelize sentinel (rawSolve s c)) [] caches
            (List.range 0) = Except.ok [] := rfl
        refine ⟨"attempt to get argmin of an empty sequence", ?_⟩
        simp only [chooseBest, hstr, hbc, hseq, assemble, List.map_nil]
        rw [pickIdx_nil]
      | succ n =>
        have hseq : seqSolveAux
            (fun s c => sentinelize sentinel (rawSolve s c)) [] caches
            (List.range (n + 1)) = Except.error "IndexError: candidate" := by
          rw [List.range_succ_eq_map]
          rfl
        refine ⟨"IndexError: candidate", ?_⟩
        simp only [chooseBest, hstr, hbc, hseq]
  · intro hne hlen strategies caches hstr hca
    have hslen : strategies.length = nBest := by
      rw [strategyLookup_ok_length hstr, hlen]
    have hclen : caches.length = nBest := buildCaches_ok_length hlen hca
    have hbounds : ∀ j ∈ List.range nBest,
        j < strategies.length ∧ j < caches.length := by
      intro j hj
      have := List.mem_range.mp hj
      omega
    have hseq := seqSolveAux_all_ok
      (fun s c => sentinelize sentinel (rawSolve s c)) strategies caches hbounds
    have hpos : 0 < nBest := by
      cases labels with
      | nil => exact absurd rfl hne
      | cons a as =>
        simp only [List.length_cons] at hlen
        omega
    have hrsne : ((List.range nBest).map fun j =>
        (strategies.getD j default,
         sentinelize sentinel
           (rawSolve (strategies.getD j default) (caches.getD j none)))) ≠ [] := by
      simp only [ne_eq, List.map_eq_nil_iff, List.range_eq_nil]
      omega
    obtain ⟨r, hr⟩ := assemble_ok_of_ne_nil tol hrsne
    refine ⟨r, ?_⟩
    rw [chooseBest_eq_assemble tol hstr hca hseq]
    exact hr

/-- A raw candidate solver for the C4 witness whose first strategy fails
outright and whose second returns a feasible outcome. -/
def scenRawSolve : Nat → Option Unit → Option SolveOut
  | 0, _ => none
  | _, _ => some { x := [], time := 1, infeasibility := 0, cost := 7 }

/-- Witness for the C4 theorem: with candidate 0's raw solve failing, the call
with labels `[0, 1]` still returns a result. -/
theorem chooseBest_error_handling_witness :
    (([0, 1] : List Nat) ≠ [] ∧ ([0, 1] : List Nat).length = 2 ∧
     strategyLookup ([0, 1] : List Nat) [0, 1] = Except.ok [0, 1] ∧
     buildCaches (none : Option (List Unit)) false 2 [0, 1] =
       Except.ok [none, none]) ∧
    (∃ r, chooseBest (1/100) ([0, 1] : List Nat) (none : Option (List Unit))
      false (fun s c => sentinelize 1000000 (scenRawSolve s c)) 2 [0, 1] =
        Except.ok r) := by
  have hne : ([0, 1] : List Nat) ≠ [] := by decide
  have hlen : ([0, 1] : List Nat).length = 2 := by decide
  have hstr : strategyLookup ([0, 1] : List Nat) [0, 1] = Except.ok [0, 1] := by
    with_unfolding_all decide
  have hca : buildCaches (none : Option (List Unit)) false 2 [0, 1] =
      Except.ok [none, none] := by with_unfolding_all decide
  exact ⟨⟨hne, hlen, hstr, hca⟩,
    (chooseBest_error_handling (1/100) 1000000 [0, 1] none false scenRawSolve 2
      [0, 1]).2 hne hlen [0, 1] [none, none] hstr hca⟩

/-- Arithmetic mean (`np.mean`); on the empty list ℚ-division yields 0 where
numpy would warn and report NaN. -/
def meanQ (l : List ℚ) : ℚ := l.sum / l.length

/-- Maximum value of a list of rationals (`np.max`; 0 on the empty list,
which numpy rejects). -/
def maxQ : List ℚ → ℚ
  | [] => 0
  | [a] => a
  | a :: b :: rest => max a (maxQ (b :: rest))

/-- Timing block of `Optimizer.performance` (optimizer.py lines 685-687,
695-696, 731-732 and 753): the per-point ratio vector
`time_comp = [time_test[i]/time_pred[i]]` kept for the detailed table, and the
reported headline metrics `avg_time_improv = np.mean(time_test)/np.mean(time_pred)`
and `max_time_improv = np.max(time_test)/np.max(time_pred)`. -/
structure PerfTiming where
  time_comp : List ℚ
  avg_time_improv : ℚ
  max_time_improv : ℚ
deriving DecidableEq, Repr

/-- The timing statistics computed by `Optimizer.performance` from the true
solve times and the predicted total times. -/
def performanceTiming (timeTest timePred : List ℚ) : PerfTiming :=
  { time_comp := (List.range timeTest.length).map fun i =>
      timeTest.getD i 0 / timePred.getD i 0,
    avg_time_improv := meanQ timeTest / meanQ timePred,
    max_time_improv := maxQ timeTest / maxQ timePred }

/-- **C5 counterexample.** With true solve times `[4, 1]` and predicted total
times `[1, 2]`: the per-point ratios are `[4, 1/2]`, whose mean is `9/4` and
max is `4`; but the reported headline metrics are
`avg_time_improv = (5/2)/(3/2) = 5/3` and `max_time_improv = 4/2 = 2`.  The
headline speedup metrics are therefore not the mean and the max of the
per-point ratio `true_solve_time / predicted_total_time`. -/
theorem performance_headline_not_per_point_counterexample :
    (performanceTiming [4, 1] [1, 2]).avg_time_improv ≠
      meanQ (performanceTiming [4, 1] [1, 2]).time_comp ∧
    (performanceTiming [4, 1] [1, 2]).max_time_improv ≠
      maxQ (performanceTiming [4, 1] [1, 2]).time_comp := by
  constructor <;> with_unfolding_all decide

/-- **C5 (amended).** The performance evaluation reports, as its headline
speedup metrics, the ratio of mean true solve time to mean predicted total
time and the ratio of max true solve time to max predicted total time, while
the per-point ratios `true_solve_time / predicted_total_time` are kept in the
detailed per-point vector `time_comp`. -/
theorem performance_headline_metrics (timeTest timePred : List ℚ) :
    (performanceTiming timeTest timePred).avg_time_improv =
      meanQ timeTest / meanQ timePred ∧
    (performanceTiming timeTest timePred).max_time_improv =
      maxQ timeTest / maxQ timePred ∧
    ∀ i, i < timeTest.length →
      (performanceTiming timeTest timePred).time_comp.getD i 0 =
        timeTest.getD i 0 / timePred.getD i 0 := by
  refine ⟨rfl, rfl, ?_⟩
  intro i hi
  have hi' : i < (List.range timeTest.length).length := by
    rw [List.length_range]
    exact hi
  show ((List.range timeTest.length).map fun i =>
      timeTest.getD i 0 / timePred.getD i 0).getD i 0 =
    timeTest.getD i 0 / timePred.getD i 0
  rw [map_getD (d := 0) hi', List.getD_eq_getElem _ 0 hi', List.getElem_range]

/-- Witness for the amended C5 theorem at the counterexample input. -/
theorem performance_headline_metrics_witness :
    (performanceTiming [4, 1] [1, 2]).avg_time_improv =
      meanQ [4, 1] / meanQ [1, 2] ∧
    (performanceTiming [4, 1] [1, 2]).max_time_improv =
      maxQ [4, 1] / maxQ [1, 2] ∧
    ∀ i, i < ([4, 1] : List ℚ).length →
      (performanceTiming [4, 1] [1, 2]).time_comp.getD i 0 =
        ([4, 1] : List ℚ).getD i 0 / ([1, 2] : List ℚ).getD i 0 :=
  performance_headline_metrics [4, 1] [1, 2]

/-- `suboptimality` (utils.py lines 65-67):
`(cost_pred - cost_test) / (np.abs(cost_test) + 1e-10)`. -/
def suboptimality (costPred costTest : ℚ) : ℚ :=
  (costPred - costTest) / (|costTest| + 1 / 10000000000)

/-- Per-point data of a predicted result consumed by `accuracy` (utils.py):
strategy, infeasibility and cost. -/
structure PredResult (S : Type) where
  strategy : S
  infeasibility : ℚ
  cost : ℚ
deriving DecidableEq, Repr

/-- Per-point ground-truth data consumed by `accuracy`: strategy and cost. -/
structure TestResult (S : Type) where
  strategy : S
  cost : ℚ
deriving DecidableEq, Repr

/-- The per-point correctness indicators of `accuracy` (utils.py lines
95-109): 1 when the predicted strategy equals the true one; otherwise 1
exactly when the prediction is feasible within `itol` and its suboptimality is
within `stol`. -/
def idxCorrectList {S : Type} [DecidableEq S] (itol stol : ℚ) :
    List (PredResult S) → List (TestResult S) → List Nat
  | [], _ => []
  | _ :: _, [] => []
  | p :: ps, t :: ts =>
    (if p.strategy = t.strategy then 1
     else if p.infeasibility ≤ itol then
       (if suboptimality p.cost t.cost ≤ stol then 1 else 0)
     else 0) :: idxCorrectList itol stol ps ts

/-- `accuracy` (utils.py lines 70-110): asserts that the two sequences have
equal length, then returns the fraction of correct points together with the
indicator vector. -/
def accuracy {S : Type} [DecidableEq S] (itol stol : ℚ)
    (resultsPred : List (PredResult S)) (resultsTest : List (TestResult S)) :
    Except String (ℚ × List Nat) :=
  if resultsPred.length = resultsTest.length then
    Except.ok
      (((idxCorrectList itol stol resultsPred resultsTest).sum : ℚ) /
         resultsPred.length,
       idxCorrectList itol stol resultsPred resultsTest)
  else
    Except.error "AssertionError: accuracy input lengths differ"

theorem idxCorrectList_sum_eq_countP {S : Type} [DecidableEq S]
    {itol stol : ℚ} (ps : List (PredResult S)) (ts : List (TestResult S)) :
    (idxCorrectList itol stol ps ts).sum =
      (ps.zip ts).countP fun pt =>
        decide (pt.1.strategy = pt.2.strategy ∨
          (pt.1.infeasibility ≤ itol ∧
           suboptimality pt.1.cost pt.2.cost ≤ stol)) := by
  induction ps generalizing ts with
  | nil => simp [idxCorrectList]
  | cons p ps ih =>
    cases ts with
    | nil => simp [idxCorrectList]
    | cons t ts =>
      simp only [idxCorrectList, List.zip_cons_cons, List.countP_cons,
        List.sum_cons, ih ts]
      split_ifs with h1 h2 h3 <;> simp_all <;> first | omega | linarith

/-- **C6.** For every pair of equal-length predicted and ground-truth result
sequences, the computed accuracy equals the fraction of test points at which
either the predicted strategy equals the true strategy, or the predicted
result's infeasibility is within the tolerance `itol` (`INFEAS_TOL`) and its
suboptimality `(cost_pred - cost_true)/(|cost_true| + 1e-10)` is within
`stol` (`SUBOPT_TOL`). -/
theorem accuracy_is_fraction_correct {S : Type} [DecidableEq S]
    (itol stol : ℚ) (resultsPred : List (PredResult S))
    (resultsTest : List (TestResult S))
    (hlen : resultsPred.length = resultsTest.length) :
    ∃ idx, accuracy itol stol resultsPred resultsTest =
      Except.ok
        ((((resultsPred.zip resultsTest).countP fun pt =>
            decide (pt.1.strategy = pt.2.strategy ∨
              (pt.1.infeasibility ≤ itol ∧
               suboptimality pt.1.cost pt.2.cost ≤ stol))) : ℚ) /
          resultsPred.length, idx) := by
  refine ⟨idxCorrectList itol stol resultsPred resultsTest, ?_⟩
  unfold accuracy
  rw [if_pos hlen, idxCorrectList_sum_eq_countP]

/-- Concrete predicted results for the C6 witness: point 0 is correct by
strategy equality, point 1 by feasibility and suboptimality, point 2 is
infeasible and wrong. -/
def scenPred : List (PredResult Nat) := [⟨0, 0, 10⟩, ⟨1, 0, 10⟩, ⟨2, 5, 10⟩]

/-- Concrete ground-truth results for the C6 witness. -/
def scenTest : List (TestResult Nat) := [⟨0, 10⟩, ⟨3, 10⟩, ⟨4, 1⟩]

/-- Witness for the C6 theorem on three concrete points (accuracy 2/3). -/
theorem accuracy_is_fraction_correct_witness :
    scenPred.length = scenTest.length ∧
    ∃ idx, accuracy (1/100) (1/100) scenPred scenTest =
      Except.ok
        ((((scenPred.zip scenTest).countP fun pt =>
            decide (pt.1.strategy = pt.2.strategy ∨
              (pt.1.infeasibility ≤ 1/100 ∧
               suboptimality pt.1.cost pt.2.cost ≤ 1/100))) : ℚ) /
          scenPred.length, idx) :=
  ⟨by decide,
   accuracy_is_fraction_correct (1/100) (1/100) scenPred scenTest (by decide)⟩

/-- Body of the `cache_factors` loop over a list of strategy ids, accumulating
one cache entry per id; an error raised by the factorization step propagates
immediately. -/
def cacheFactorsAux {E Cache : Type} (factorize : Nat → Except E Cache) :
    List Nat → Except E (List Cache)
  | [] => Except.ok []
  | i :: is =>
    match factorize i with
    | Except.error e => Except.error e
    | Except.ok c =>
      match cacheFactorsAux factorize is with
      | Except.error e => Except.error e
      | Except.ok cs => Except.ok (c :: cs)

/-- `Optimizer.cache_factors` (optimizer.py lines 340-371): for each strategy
id in `range(self.n_strategies)`, pick a representative parameter, construct
the reduced problem, build the KKT matrix and factorize it — all bundled here
into the injected fallible step `factorize`.  The loop has no per-strategy
exception handling: any raised error propagates out of the whole call. -/
def cacheFactors {E Cache : Type} (factorize : Nat → Except E Cache)
    (nStrategies : Nat) : Except E (List Cache) :=
  cacheFactorsAux factorize (List.range nStrategies)

/-- A factorization step for the C7 counterexample: strategy 0's linear system
is singular, every other strategy factorizes fine. -/
def failFactorize : Nat → Except String Unit
  | 0 => Except.error "numerical factorization failed: singular matrix"
  | _ => Except.ok ()

/-- **C7 counterexample.** With two retained strategies and strategy 0's
factorization failing, the whole cache construction aborts with the raw
error: no per-strategy `FactorizationError` is recorded and no cache entry is
built for the remaining strategy 1 (there is no fail-fast flag either —
aborting is the only behaviour). -/
theorem cacheFactors_abort_counterexample :
    cacheFactors failFactorize 2 =
      Except.error "numerical factorization failed: singular matrix" := by
  with_unfolding_all decide

theorem cacheFactorsAux_append_fail {E Cache : Type}
    {factorize : Nat → Except E Cache} {e : E} {i : Nat}
    (hfail : factorize i = Except.error e) :
    ∀ js₁ : List Nat, (∀ j ∈ js₁, ∃ c, factorize j = Except.ok c) →
      ∀ js₂ : List Nat,
        cacheFactorsAux factorize (js₁ ++ i :: js₂) = Except.error e := by
  intro js₁ hok js₂
  induction js₁ with
  | nil =>
    simp only [List.nil_append, cacheFactorsAux, hfail]
  | cons j js ih =>
    obtain ⟨c, hc⟩ := hok j (List.mem_cons_self _ _)
    have htail := ih fun x hx => hok x (List.mem_cons_of_mem _ hx)
    simp only [List.cons_append, cacheFactorsAux, hc, List.append_eq, htail]

/-- **C7 (amended).** During factorization-cache construction over the
retained strategies, a failure to factorize one strategy's linear system
aborts the whole construction: if every strategy id below `i` factorizes and
strategy `i < n` fails with error `e`, then `cache_factors` over `n`
strategies returns that error, and no cache-entry list is produced for any
strategy (there is no per-strategy `FactorizationError` recovery and no
fail-fast option). -/
theorem cacheFactors_aborts_on_failure {E Cache : Type}
    (factorize : Nat → Except E Cache) (n i : Nat) (e : E)
    (hi : i < n)
    (hok : ∀ j, j < i → ∃ c, factorize j = Except.ok c)
    (hfail : factorize i = Except.error e) :
    cacheFactors factorize n = Except.error e := by
  have hsplit : List.range n =
      List.range i ++ i :: ((List.range (n - i - 1)).map fun k => i + 1 + k) := by
    obtain ⟨m, hm⟩ : ∃ m, n = i + (m + 1) := ⟨n - i - 1, by omega⟩
    have hm2 : n - i - 1 = m := by omega
    rw [hm2, hm, List.range_add, List.range_succ_eq_map]
    have hfun : ((fun x => i + x) ∘ Nat.succ) = fun k => i + 1 + k := by
      funext k
      show i + Nat.succ k = i + 1 + k
      omega
    simp only [List.map_cons, List.map_map, Nat.add_zero, hfun]
  unfold cacheFactors
  rw [hsplit]
  exact cacheFactorsAux_append_fail hfail (List.range i)
    (fun j hj => hok j (List.mem_range.mp hj)) _

/-- Witness for the amended C7 theorem at the counterexample input. -/
theorem cacheFactors_aborts_on_failure_witness :
    (0 < 2 ∧ failFactorize 0 =
      Except.error "numerical factorization failed: singular matrix") ∧
    cacheFactors failFactorize 2 =
      Except.error "numerical factorization failed: singular matrix" :=
  ⟨⟨by decide, rfl⟩,
   cacheFactors_aborts_on_failure failFactorize 2 0 _ (by decide)
     (fun j hj => absurd hj (Nat.not_lt_zero j)) rfl⟩

/-- One entry of `results = self._problem.solve_parametric(X, ...)` as
consumed by `Optimizer.get_samples` (optimizer.py lines 234-253): optional
strategy (absent exactly for an infeasible point), achieved cost, and whether
the solver status lies in `SOLUTION_PRESENT`. -/
structure InstanceResult (S : Type) where
  strategy : Option S
  cost : ℚ
  statusSolutionPresent : Bool
deriving DecidableEq, Repr

/-- The data-provided branch of `Optimizer.get_samples` (optimizer.py lines
226-261): the points whose result has no `'strategy'` key are collected and,
when any exist, a `ValueError` is raised at once; otherwise the costs and
strategies are extracted, every status is asserted to be in
`SOLUTION_PRESENT`, and the strategies are encoded by the injected
`encode_strategies` (defined in `mlopt/strategy.py`, outside this core). -/
def getSamplesFromData {S : Type} (encode : List S → List Nat × List S)
    (results : List (InstanceResult S)) :
    Except String (List ℚ × List Nat × List S) :=
  if (results.filter fun r => r.strategy.isNone).length ≠ 0 then
    Except.error "ValueError: number of infeasible points"
  else if results.all fun r => r.statusSolutionPresent then
    Except.ok (results.map fun r => r.cost,
               (encode (results.filterMap fun r => r.strategy)).1,
               (encode (results.filterMap fun r => r.strategy)).2)
  else
    Except.error "AssertionError: The training points must be feasible"

/-- **C8.** During training-dataset construction from provided parameter
samples, the presence of any infeasible training point (a solve result without
a strategy) causes the construction to abort immediately with the surfaced
`ValueError`; no training data is returned and no encoding — hence no model —
is built, whatever the encoder. -/
theorem getSamples_aborts_on_infeasible {S : Type}
    (encode : List S → List Nat × List S) (results : List (InstanceResult S))
    (h : ∃ r ∈ results, r.strategy = none) :
    getSamplesFromData encode results =
      Except.error "ValueError: number of infeasible points" := by
  obtain ⟨r, hr, hrs⟩ := h
  have hmem : r ∈ results.filter fun r => r.strategy.isNone := by
    rw [List.mem_filter]
    exact ⟨hr, by simp [hrs]⟩
  have hpos : (results.filter fun r => r.strategy.isNone).length ≠ 0 := by
    have := List.length_pos.mpr (List.ne_nil_of_mem hmem)
    omega
  unfold getSamplesFromData
  rw [if_pos hpos]

/-- A trivial strategy encoder for the C8 witness. -/
def scenEncode : List Nat → List Nat × List Nat :=
  fun l => (List.range l.length, l)

/-- Witness for the C8 theorem: the second of three training points is
infeasible, and dataset construction aborts with the `ValueError`. -/
theorem getSamples_aborts_on_infeasible_witness :
    (∃ r ∈ ([⟨some 4, 1, true⟩, ⟨none, 0, false⟩, ⟨some 5, 2, true⟩] :
        List (InstanceResult Nat)), r.strategy = none) ∧
    getSamplesFromData scenEncode
        ([⟨some 4, 1, true⟩, ⟨none, 0, false⟩, ⟨some 5, 2, true⟩] :
          List (InstanceResult Nat)) =
      Except.error "ValueError: number of infeasible points" :=
  ⟨⟨⟨none, 0, false⟩, by decide, rfl⟩,
   getSamples_aborts_on_infeasible scenEncode
     ([⟨some 4, 1, true⟩, ⟨none, 0, false⟩, ⟨some 5, 2, true⟩] :
       List (InstanceResult Nat))
     ⟨⟨none, 0, false⟩, by decide, rfl⟩⟩

/-- Final per-point result dictionary returned by `Optimizer.solve`
(optimizer.py lines 511-514): the `choose_best` fields plus `pred_time`,
`solve_time`, and `time = pred_time + solve_time`. -/
structure FinalResult (S : Type) where
  x : List ℚ
  time : ℚ
  strategy : S
  cost : ℚ
  infeasibility : ℚ
  pred_time : ℚ
  solve_time : ℚ
deriving DecidableEq, Repr

instance {S : Type} [Inhabited S] : Inhabited (FinalResult S) :=
  ⟨⟨[], 0, default, 0, 0, 0, 0⟩⟩

/-- The post-processing `Optimizer.solve` applies to each `choose_best`
result (optimizer.py lines 511-514). -/
def finalize {S : Type} (tPred : ℚ) (r : BestResult S) : FinalResult S :=
  { x := r.x, strategy := r.strategy, cost := r.cost,
    infeasibility := r.infeasibility, pred_time := tPred,
    solve_time := r.time, time := tPred + r.time }

/-- Python truthiness of `not self._solver_cache` in `Optimizer.solve`
(line 482): true when the cache is `None` or the empty list. -/
def cacheFalsy {C : Type} : Option (List C) → Bool
  | none => true
  | some l => l.isEmpty

/-- The output of `Optimizer.solve`: a bare result dictionary when there is
exactly one data point, the list of results otherwise (lines 516-518). -/
inductive SolveOutput (S : Type) where
  | single (r : FinalResult S)
  | several (rs : List (FinalResult S))
deriving DecidableEq, Repr

/-- The per-point loop of `Optimizer.solve` (lines 502-508): point `i` is
populated and solved by `choose_best(classes[i, :], use_cache)`; a missing
prediction row is an index error. -/
def solveLoop {S P : Type}
    (choose : P → List Nat → Except String (BestResult S)) :
    List P → List (List Nat) → Except String (List (BestResult S))
  | [], _ => Except.ok []
  | _ :: _, [] => Except.error "IndexError: classes"
  | pt :: pts, ls :: lss =>
    match choose pt ls with
    | Except.error e => Except.error e
    | Except.ok r =>
      match solveLoop choose pts lss with
      | Except.error e => Except.error e
      | Except.ok rs => Except.ok (r :: rs)

/-- `Optimizer.solve` (optimizer.py lines 456-519): check the cache
precondition, predict the ranked classes (injected as `classes`, with the
averaged prediction time `tPred`), run `choose_best` per point, append the
timing fields, and scalarize a one-element result list. -/
def solveEntry {S C P : Type} (tol : ℚ) (encoding : List S)
    (solverCache : Option (List C)) (useCache : Bool)
    (solvePoint : P → S → Option C → SolveOut) (nBest : Nat)
    (classes : List (List Nat)) (tPred : ℚ) (X : List P) :
    Except String (SolveOutput S) :=
  if useCache && cacheFalsy solverCache then
    Except.error "ValueError: Solver cache requested but the cache has not been computed for this problem."
  else
    match solveLoop (fun pt ls =>
        chooseBest tol encoding solverCache useCache (solvePoint pt) nBest ls)
        X classes with
    | Except.error e => Except.error e
    | Except.ok rs =>
      match rs.map (finalize tPred) with
      | [r] => Except.ok (SolveOutput.single r)
      | fs => Except.ok (SolveOutput.several fs)

theorem solveLoop_ok_length {S P : Type}
    {choose : P → List Nat → Except String (BestResult S)}
    {X : List P} {classes : List (List Nat)} {rs : List (BestResult S)}
    (h : solveLoop choose X classes = Except.ok rs) : rs.length = X.length := by
  induction X generalizing classes rs with
  | nil =>
    cases classes <;> simp only [solveLoop] at h <;> cases h <;> rfl
  | cons pt pts ih =>
    cases classes with
    | nil => simp only [solveLoop] at h; cases h
    | cons ls lss =>
      simp only [solveLoop] at h
      cases hc : choose pt ls with
      | error e => rw [hc] at h; cases h
      | ok r =>
        rw [hc] at h
        cases hrec : solveLoop choose pts lss with
        | error e => rw [hrec] at h; cases h
        | ok rest =>
          rw [hrec] at h
          cases h
          simp [ih hrec]

theorem solveLoop_ok_getD {S P : Type} [Inhabited S] [Inhabited P]
    {choose : P → List Nat → Except String (BestResult S)}
    {X : List P} {classes : List (List Nat)} {rs : List (BestResult S)}
    (h : solveLoop choose X classes = Except.ok rs) :
    ∀ i, i < X.length →
      choose (X.getD i default) (classes.getD i []) =
        Except.ok (rs.getD i default) := by
  induction X generalizing classes rs with
  | nil => intro i hi; cases hi
  | cons pt pts ih =>
    cases classes with
    | nil => simp only [solveLoop] at h; cases h
    | cons ls lss =>
      simp only [solveLoop] at h
      cases hc : choose pt ls with
      | error e => rw [hc] at h; cases h
      | ok r =>
        rw [hc] at h
        cases hrec : solveLoop choose pts lss with
        | error e => rw [hrec] at h; cases h
        | ok rest =>
          rw [hrec] at h
          cases h
          intro i hi
          cases i with
          | zero => simpa using hc
          | succ k =>
            have hk : k < pts.length := Nat.lt_of_succ_lt_succ hi
            simpa using ih hrec k hk

theorem solveEntry_ok_elim {S C P : Type} {tol : ℚ} {encoding : List S}
    {solverCache : Option (List C)} {useCache : Bool}
    {solvePoint : P → S → Option C → SolveOut} {nBest : Nat}
    {classes : List (List Nat)} {tPred : ℚ} {X : List P}
    {out : SolveOutput S}
    (hout : solveEntry tol encoding solverCache useCache solvePoint nBest
      classes tPred X = Except.ok out) :
    ∃ rs, solveLoop (fun pt ls =>
        chooseBest tol encoding solverCache useCache (solvePoint pt) nBest ls)
        X classes = Except.ok rs ∧
      ((∃ r, rs.map (finalize tPred) = [r] ∧ out = SolveOutput.single r) ∨
       ((∀ r, rs.map (finalize tPred) ≠ [r]) ∧
        out = SolveOutput.several (rs.map (finalize tPred)))) := by
  unfold solveEntry at hout
  split at hout
  · cases hout
  · split at hout
    · cases hout
    · rename_i rs hloop
      split at hout
      · rename_i r hmap
        cases hout
        exact ⟨rs, hloop, Or.inl ⟨r, hmap, rfl⟩⟩
      · rename_i hnot
        cases hout
        exact ⟨rs, hloop, Or.inr ⟨fun r => hnot r, rfl⟩⟩

/-- **C9.** When the public solve entry point is invoked with exactly one
parameter point, it returns the single result dictionary directly rather than
a one-element list; with more than one point it returns the list of per-point
result dictionaries in input order, where the `i`-th entry is the finalized
`choose_best` result of the `i`-th point and its predicted classes. -/
theorem solveEntry_scalarizes_single {S C P : Type} [Inhabited S] [Inhabited P]
    (tol : ℚ) (encoding : List S) (solverCache : Option (List C))
    (useCache : Bool) (solvePoint : P → S → Option C → SolveOut) (nBest : Nat)
    (classes : List (List Nat)) (tPred : ℚ) (X : List P)
    (out : SolveOutput S)
    (hout : solveEntry tol encoding solverCache useCache solvePoint nBest
      classes tPred X = Except.ok out) :
    (X.length = 1 → ∃ r, out = SolveOutput.single r) ∧
    (2 ≤ X.length → ∃ fs, out = SolveOutput.several fs ∧
      fs.length = X.length ∧
      ∀ i, i < X.length → ∃ b,
        chooseBest tol encoding solverCache useCache
            (solvePoint (X.getD i default)) nBest (classes.getD i []) =
          Except.ok b ∧
        fs.getD i default = finalize tPred b) := by
  obtain ⟨rs, hloop, hcases⟩ := solveEntry_ok_elim hout
  have hlen : rs.length = X.length := solveLoop_ok_length hloop
  constructor
  · intro h1
    rcases hcases with ⟨r, hmap, hsingle⟩ | ⟨hnot, hseveral⟩
    · exact ⟨r, hsingle⟩
    · exfalso
      have : rs.length = 1 := by omega
      obtain ⟨a, ha⟩ := List.length_eq_one.mp this
      exact hnot (finalize tPred a) (by rw [ha]; rfl)
  · intro h2
    rcases hcases with ⟨r, hmap, hsingle⟩ | ⟨hnot, hseveral⟩
    · exfalso
      have hmlen : (rs.map (finalize tPred)).length = 1 := by rw [hmap]; rfl
      rw [List.length_map] at hmlen
      omega
    · refine ⟨rs.map (finalize tPred), hseveral, ?_, ?_⟩
      · rw [List.length_map, hlen]
      · intro i hi
        have hirs : i < rs.length := by omega
        refine ⟨rs.getD i default, solveLoop_ok_getD hloop i hi, ?_⟩
        rw [List.getD_eq_getElem _ default (by rw [List.length_map]; exact hirs),
          List.getElem_map, List.getD_eq_getElem rs default hirs]

/-- **C10.** The public solve entry point raises the `ValueError` whenever it
is called with `use_cache=True` while the factorization cache has not been
built (the cache field is `None` or the empty list); the check precedes the
per-point loop, so the same error results for every candidate solver and no
candidate solve is attempted. -/
theorem solveEntry_requires_cache {S C P : Type} (tol : ℚ) (encoding : List S)
    (solverCache : Option (List C))
    (solvePoint : P → S → Option C → SolveOut) (nBest : Nat)
    (classes : List (List Nat)) (tPred : ℚ) (X : List P)
    (hcache : solverCache = none ∨ solverCache = some []) :
    solveEntry tol encoding solverCache true solvePoint nBest classes tPred X =
      Except.error "ValueError: Solver cache requested but the cache has not been computed for this problem." := by
  have hfal : cacheFalsy solverCache = true := by
    rcases hcache with h | h <;> subst h <;> rfl
  unfold solveEntry
  rw [hfal]
  rfl

/-- Candidate solver for the C9/C10 witnesses: every candidate of every point
solves feasibly with cost 2 and unit time. -/
def scenSolvePoint : Nat → Nat → Option Unit → SolveOut :=
  fun _ _ _ => { x := [], time := 1, infeasibility := 0, cost := 2 }

/-- Expected output of the C9 witness: two identical finalized results. -/
def scenOut : SolveOutput Nat :=
  SolveOutput.several
    [{ x := [], time := 2, strategy := 0, cost := 2, infeasibility := 0,
       pred_time := 1, solve_time := 1 },
     { x := [], time := 2, strategy := 0, cost := 2, infeasibility := 0,
       pred_time := 1, solve_time := 1 }]

/-- Witness for the C9 theorem on two parameter points: the output is the
two-element result list in input order. -/
theorem solveEntry_scalarizes_single_witness :
    (solveEntry (1/100) ([0] : List Nat) (none : Option (List Unit)) false
      scenSolvePoint 1 [[0], [0]] 1 ([100, 200] : List Nat) =
        Except.ok scenOut) ∧
    ((([100, 200] : List Nat).length = 1 →
        ∃ r, scenOut = SolveOutput.single r) ∧
     (2 ≤ ([100, 200] : List Nat).length →
        ∃ fs, scenOut = SolveOutput.several fs ∧
          fs.length = ([100, 200] : List Nat).length ∧
          ∀ i, i < ([100, 200] : List Nat).length → ∃ b,
            chooseBest (1/100) ([0] : List Nat) (none : Option (List Unit))
                false (scenSolvePoint (([100, 200] : List Nat).getD i default))
                1 (([[0], [0]] : List (List Nat)).getD i []) =
              Except.ok b ∧
            fs.getD i default = finalize 1 b)) := by
  have hout : solveEntry (1/100) ([0] : List Nat) (none : Option (List Unit))
      false scenSolvePoint 1 [[0], [0]] 1 ([100, 200] : List Nat) =
        Except.ok scenOut := by with_unfolding_all decide
  exact ⟨hout,
    solveEntry_scalarizes_single (1/100) [0] none false scenSolvePoint 1
      [[0], [0]] 1 [100, 200] scenOut hout⟩

/-- Witness for the C10 theorem: `use_cache=True` with a `None` cache makes
the entry point fail with the `ValueError` before any candidate solve. -/
theorem solveEntry_requires_cache_witness :
    ((none : Option (List Unit)) = none ∨
      (none : Option (List Unit)) = some []) ∧
    solveEntry (1/100) ([0] : List Nat) (none : Option (List Unit)) true
        scenSolvePoint 1 [[0]] 1 ([100] : List Nat) =
      Except.error "ValueError: Solver cache requested but the cache has not been computed for this problem." :=
  ⟨Or.inl rfl,
   solveEntry_requires_cache (1/100) [0] none scenSolvePoint 1 [[0]] 1 [100]
     (Or.inl rfl)⟩

end Mlopt
